import Mathlib

/-!
# Verification of the rust-rrule recurrence engine and content-line parser

This development shallowly embeds the recurrence-rule library: the Gregorian
calendar primitives, the recurrence expansion engine with rule-set
composition, and the content-line parser `get_content_line_parts`
(src/rrule/src/parser/content_line/content_line_parts.rs).

The parser is embedded directly from its Rust source.  The expansion engine
itself (modules `iter`, `rrule_iter`, `rruleset`, `rruleset_iter`) is not
among the available sources — only its doctests, examples and the crate root
are — so it is modelled from the specification (§3–§4.7): all seven
frequencies, INTERVAL, COUNT and UNTIL bounds, the by-parts BYMONTH,
BYWEEKNO, BYYEARDAY, BYMONTHDAY, BYDAY (plain and ordinal), BYHOUR,
BYMINUTE, BYSECOND and BYSETPOS with the expand/limit roles of the §4.5
table, the week-start, the §4.2 timezone adapter with its gap-skip /
earlier-fold policy, and rule-set composition with RDATE/EXRULE/EXDATE.

Time is measured in seconds on the local civil clock; a timezone adapter
maps a local civil second count to an absolute instant (seconds UTC), or
to nothing when the local time falls in a DST gap.  Day 1 is 0001-01-01 of
the proleptic Gregorian calendar, a Monday.
-/

set_option maxRecDepth 100000
set_option maxHeartbeats 2000000

namespace RRuleLib

/-- Is `y` a Gregorian leap year? -/
def isLeap (y : Nat) : Bool :=
  (y % 4 == 0 && y % 100 != 0) || y % 400 == 0

/-- Number of days in year `y`. -/
def daysInYear (y : Nat) : Nat :=
  if isLeap y then 366 else 365

/-- Number of days in month `m` (1–12) of year `y`. -/
def daysInMonth (y m : Nat) : Nat :=
  if m = 1 then 31
  else if m = 2 then (if isLeap y then 29 else 28)
  else if m = 3 then 31
  else if m = 4 then 30
  else if m = 5 then 31
  else if m = 6 then 30
  else if m = 7 then 31
  else if m = 8 then 31
  else if m = 9 then 30
  else if m = 10 then 31
  else if m = 11 then 30
  else 31

/-- Total number of days in the years `1, …, y`: 365 per year plus one per
leap year among `1, …, y`. -/
def daysUpToYear (y : Nat) : Nat :=
  365 * y + y / 4 - y / 100 + y / 400

/-- Total number of days in months `1, …, m` of year `y`. -/
def cumMonth (y : Nat) : Nat → Nat
  | 0 => 0
  | m + 1 => cumMonth y m + daysInMonth y (m + 1)

/-- Rata-die day number of the civil date `y-m-d` (0001-01-01 is day 1). -/
def rataDie (y m d : Nat) : Nat :=
  daysUpToYear (y - 1) + cumMonth y (m - 1) + d

/-- Weekday index of rata-die day `rd`: 0 = Monday, …, 6 = Sunday. -/
def weekdayIdx (rd : Nat) : Nat :=
  (rd + 6) % 7

/-- Absolute month index of month `m` of year `y` (counted from 0 =
January of year 1). -/
def monthIdx (y m : Nat) : Nat :=
  (y - 1) * 12 + (m - 1)

/-- Number of days in the month with absolute month index `mi`. -/
def daysInMonthIdx (mi : Nat) : Nat :=
  daysInMonth (mi / 12 + 1) (mi % 12 + 1)

/-- Rata-die day number of the first day of the month with absolute month
index `mi`. -/
def firstRd (mi : Nat) : Nat :=
  daysUpToYear (mi / 12) + cumMonth (mi / 12 + 1) (mi % 12) + 1

/-- Local-civil second count of the civil moment `(rd, h, mi, s)`:
seconds since the civil epoch on the local clock. -/
def localSecs (rd h mi s : Nat) : Nat :=
  rd * 86400 + h * 3600 + mi * 60 + s

/-- Absolute instant (seconds UTC) of the civil moment `(rd, h, mi)` (at
second 0) in a fixed-offset zone `off` minutes east of UTC. -/
def localAbs (rd h mi : Nat) (off : Int) : Int :=
  (localSecs rd h mi 0 : Int) - off * 60

/-- Month and day-of-month of day `doy` (1-based) of year `y`: walk the
months, at most eleven steps of fuel. -/
def mdAux (y : Nat) : Nat → Nat → Nat → Nat × Nat
  | 0, m, d => (m, d)
  | fuel + 1, m, d =>
    if d ≤ daysInMonth y m then (m, d)
    else mdAux y fuel (m + 1) (d - daysInMonth y m)

/-- Month and day-of-month of day-of-year `doy` of year `y`. -/
def monthDayOfDoy (y doy : Nat) : Nat × Nat :=
  mdAux y 11 1 doy

/-- The year containing rata-die day `rd`: estimated from the 400-year
cycle average, then corrected by at most two steps. -/
def yearOfRd (rd : Nat) : Nat :=
  let y0 := (rd - 1) * 400 / 146097 + 1
  if rd ≤ daysUpToYear y0 then y0
  else if rd ≤ daysUpToYear (y0 + 1) then y0 + 1
  else y0 + 2

/-- Day-of-year (1-based) of rata-die day `rd`. -/
def doyOfRd (rd : Nat) : Nat :=
  rd - daysUpToYear (yearOfRd rd - 1)

/-- The seven frequencies of the source enum `Frequenzy` (§3). -/
inductive Frequenzy
  | yearly
  | monthly
  | weekly
  | daily
  | hourly
  | minutely
  | secondly
deriving DecidableEq, Repr

/-- Modelled from the spec: the timezone adapter (§4.2, component C2).  A
zone maps a local civil moment (local seconds) to its absolute instant, or
to `none` when the local time falls in a DST gap — such an occurrence is
skipped silently; an ambiguous (fold) local time is already resolved to
the earlier of its two instants by the adapter. -/
abbrev Zone : Type := Nat → Option Int

/-- The fixed-offset zone `off` minutes east of UTC (UTC is `fixedZone 0`;
Europe/Berlin in January is `fixedZone 60`). -/
def fixedZone (off : Int) : Zone :=
  fun ls => some ((ls : Int) - off * 60)

/-- §4.2's observable contract on a zone: the gap-skip / earlier-fold
policy makes the absolute instants respect the local civil order ("this
prevents non-monotonic output"). -/
def ZoneValid (tz : Zone) : Prop :=
  ∀ a b x y, a < b → tz a = some x → tz b = some y → x < y

/-- Modelled from the spec: the structured rule value (§3 `RuleValue`,
source type `Options`/`ParsedOptions`, absent from the sources).  The
start (DTSTART) is the civil moment `(year, month, day, hour, minute,
second)` read in the rule's zone `tz`; `untilAbs` is the UNTIL bound as an
absolute instant (named `until` in the source; `until` is reserved in
Lean); `wkst` is the week start (0 = Monday, the default, … 6 = Sunday);
`byweekday` holds the plain weekday indices of BYDAY and `bynweekday` its
ordinal entries `(ordinal, weekday)`; `bysecond` may list 60 but such a
second is never yielded (§3). -/
structure Options where
  freq : Frequenzy
  interval : Nat
  count : Option Nat
  untilAbs : Option Int
  wkst : Nat
  bymonth : List Nat
  byweekno : List Int
  byyearday : List Int
  bymonthday : List Int
  byweekday : List Nat
  bynweekday : List (Int × Nat)
  byhour : List Nat
  byminute : List Nat
  bysecond : List Nat
  bysetpos : List Int
  year : Nat
  month : Nat
  day : Nat
  hour : Nat
  minute : Nat
  second : Nat
  tz : Zone

/-- A default `Options` value: Daily, interval 1, no bound, no by-parts,
start 0001-01-01T00:00:00 in UTC. -/
def Options.default : Options :=
  { freq := .daily, interval := 1, count := none, untilAbs := none,
    wkst := 0, bymonth := [], byweekno := [], byyearday := [],
    bymonthday := [], byweekday := [], bynweekday := [], byhour := [],
    byminute := [], bysecond := [], bysetpos := [], year := 1, month := 1,
    day := 1, hour := 0, minute := 0, second := 0, tz := fixedZone 0 }

/-- Insert `x` into a strictly sorted list, keeping it strictly sorted
(duplicates collapse). -/
def insSorted {α : Type} [LinearOrder α] (x : α) : List α → List α
  | [] => [x]
  | y :: ys => if x < y then x :: y :: ys
    else if x = y then y :: ys
    else y :: insSorted x ys

/-- Sort a list in strictly increasing order, removing duplicates (§4.5:
"duplicates are removed and results kept in ascending order"). -/
def sortDedup {α : Type} [LinearOrder α] (l : List α) : List α :=
  l.foldr insSorted []

/-- The rule's weekday set, normalised: only valid indices (< 7), strictly
sorted, without duplicates. -/
def byDayNorm (o : Options) : List Nat :=
  (o.byweekday.filter (fun w => w < 7)).foldr insSorted []

/-- Rata-die day number of the rule's start date. -/
def Options.startRd (o : Options) : Nat :=
  rataDie o.year o.month o.day

/-- Local-civil second count of the rule's start moment. -/
def Options.startLocal (o : Options) : Nat :=
  localSecs o.startRd o.hour o.minute o.second

/-- Rata-die day number of the `wkst`-day beginning the week that contains
the rule's start (the week anchor; `week_start` defaults to Monday). -/
def Options.weekBase (o : Options) : Nat :=
  o.startRd - (weekdayIdx o.startRd + 7 - o.wkst % 7) % 7

/-- Absolute month index of the rule's start month. -/
def Options.startMonthIdx (o : Options) : Nat :=
  monthIdx o.year o.month

/-- Normalised BYHOUR set: the listed valid hours, ascending and
deduplicated; absent, the dimension defaults to the start's hour (§4.5
defaulting). -/
def hoursOf (o : Options) : List Nat :=
  if o.byhour = [] then [o.hour]
  else sortDedup (o.byhour.filter (fun h => h < 24))

/-- Normalised BYMINUTE set (default: the start's minute). -/
def minutesOf (o : Options) : List Nat :=
  if o.byminute = [] then [o.minute]
  else sortDedup (o.byminute.filter (fun m => m < 60))

/-- Normalised BYSECOND set (default: the start's second); 60 is permitted
in the rule but never yielded (§3), so it is dropped. -/
def secondsOf (o : Options) : List Nat :=
  if o.bysecond = [] then [o.second]
  else sortDedup (o.bysecond.filter (fun sc => sc < 60))

/-- The expanded time-of-day grid, in seconds of the local day (§4.5
order: BYHOUR → BYMINUTE → BYSECOND). -/
def timesOf (o : Options) : List Nat :=
  (hoursOf o).flatMap fun h =>
    (minutesOf o).flatMap fun mi =>
      (secondsOf o).map fun sc => h * 3600 + mi * 60 + sc

/-- The minute/second grid within one hour (Hourly frequency, where BYHOUR
limits and the finer dimensions expand). -/
def msOf (o : Options) : List Nat :=
  (minutesOf o).flatMap fun mi =>
    (secondsOf o).map fun sc => mi * 60 + sc

/-- BYWEEKNO day match (§4.5: ISO-like weeks anchored at `week_start`):
day `doy` of year `y` lies in a listed week, weeks counted from the week
containing January 1, negative numbers from the year's last week. -/
def weekNoOK (o : Options) (y doy : Nat) : Prop :=
  let off := (weekdayIdx (rataDie y 1 1) + 7 - o.wkst % 7) % 7
  let wk := (doy - 1 + off) / 7 + 1
  let last := (daysInYear y - 1 + off) / 7 + 1
  (wk : Int) ∈ o.byweekno ∨ ((wk : Int) - last - 1) ∈ o.byweekno

/-- Ordinal BYDAY match (§4.5): is `rd` the `ord`-th day (negative: from
the end) with weekday `wd` inside the scope of `len` days starting at
`first`?  Ordinals outside the scope's extent match nothing. -/
def nthWeekdayOK (first len rd : Nat) (ord : Int) (wd : Nat) : Prop :=
  weekdayIdx rd = wd % 7 ∧ first ≤ rd ∧ rd < first + len ∧
    (let fo := (wd % 7 + 7 - weekdayIdx first) % 7
     let total := (len - fo + 6) / 7
     let idx := (rd - first - fo) / 7
     fo < len ∧
       (if 0 < ord then (idx : Int) + 1 = ord else (idx : Int) - total = ord))

/-- BYDAY day-level match: no BYDAY entries at all, or a plain listed
weekday, or an ordinal entry hitting `rd` inside the given scope. -/
def byDayOK (o : Options) (first len rd : Nat) : Prop :=
  (o.byweekday = [] ∧ o.bynweekday = []) ∨
  weekdayIdx rd ∈ byDayNorm o ∨
  ∃ e ∈ o.bynweekday, nthWeekdayOK first len rd e.1 e.2

/-- Signed membership for BYMONTHDAY/BYYEARDAY (§4.5 edge cases): the
1-based value `v` out of `total`, listed positively or counted from the
end (−1 = last). -/
def signedMemOK (v total : Nat) (l : List Int) : Prop :=
  (v : Int) ∈ l ∨ ((v : Int) - total - 1) ∈ l

/-- Day-level Limit checks shared by the Daily, Hourly, Minutely and
Secondly frequencies (§4.5 table: BYMONTH, BYYEARDAY, BYMONTHDAY and BYDAY
all limit there; ordinal BYDAY is forbidden below Monthly — §3 invariant
4 — so only plain weekdays are consulted). -/
def dayLimitsOK (o : Options) (rd : Nat) : Prop :=
  let y := yearOfRd rd
  let doy := doyOfRd rd
  let md := monthDayOfDoy y doy
  (o.bymonth = [] ∨ md.1 ∈ o.bymonth) ∧
  (o.byyearday = [] ∨ signedMemOK doy (daysInYear y) o.byyearday) ∧
  (o.bymonthday = [] ∨ signedMemOK md.2 (daysInMonth y md.1) o.bymonthday) ∧
  (o.byweekday = [] ∨ weekdayIdx rd ∈ byDayNorm o)

/-- Are any day-selecting by-parts present?  (Yearly expansion: absent,
the anchor keeps the start's month and day.) -/
def hasDayParts (o : Options) : Prop :=
  o.bymonth ≠ [] ∨ o.byweekno ≠ [] ∨ o.byyearday ≠ [] ∨
  o.bymonthday ≠ [] ∨ o.byweekday ≠ [] ∨ o.bynweekday ≠ []

/-- Yearly day selection (§4.5: every day by-part expands under Yearly;
by-parts that are present constrain each day of the year simultaneously;
ordinal BYDAY scopes to the day's month when BYMONTH is present, else to
the year). -/
def yearlyDayOK (o : Options) (y doy : Nat) : Prop :=
  let jan1 := rataDie y 1 1
  let rd := jan1 + doy - 1
  let md := monthDayOfDoy y doy
  (o.bymonth = [] ∨ md.1 ∈ o.bymonth) ∧
  (o.byweekno = [] ∨ weekNoOK o y doy) ∧
  (o.byyearday = [] ∨ signedMemOK doy (daysInYear y) o.byyearday) ∧
  (o.bymonthday = [] ∨ signedMemOK md.2 (daysInMonth y md.1) o.bymonthday) ∧
  (if o.bymonth = [] then byDayOK o jan1 (daysInYear y) rd
   else byDayOK o (rataDie y md.1 1) (daysInMonth y md.1) rd)

/-- Monthly day selection (§4.5: BYMONTHDAY and BYDAY expand under
Monthly, both present intersect; ordinal BYDAY scopes to the month). -/
def monthlyDayOK (o : Options) (mi d : Nat) : Prop :=
  (o.bymonthday = [] ∨ signedMemOK d (daysInMonthIdx mi) o.bymonthday) ∧
  byDayOK o (firstRd mi) (daysInMonthIdx mi) (firstRd mi + d - 1)

/-- Weekly day selection (§4.5: BYDAY expands within the week — without it
the start's weekday is kept — and BYMONTH limits). -/
def weeklyDayOK (o : Options) (rd : Nat) : Prop :=
  (if o.byweekday = [] then weekdayIdx rd = weekdayIdx o.startRd
   else weekdayIdx rd ∈ byDayNorm o) ∧
  (o.bymonth = [] ∨ (monthDayOfDoy (yearOfRd rd) (doyOfRd rd)).1 ∈ o.bymonth)

instance (o : Options) (y doy : Nat) : Decidable (weekNoOK o y doy) := by
  unfold weekNoOK; infer_instance

instance (first len rd : Nat) (ord : Int) (wd : Nat) :
    Decidable (nthWeekdayOK first len rd ord wd) := by
  unfold nthWeekdayOK; infer_instance

instance (o : Options) (first len rd : Nat) : Decidable (byDayOK o first len rd) := by
  unfold byDayOK; infer_instance

instance (v total : Nat) (l : List Int) : Decidable (signedMemOK v total l) := by
  unfold signedMemOK; infer_instance

instance (o : Options) (rd : Nat) : Decidable (dayLimitsOK o rd) := by
  unfold dayLimitsOK; infer_instance

instance (o : Options) : Decidable (hasDayParts o) := by
  unfold hasDayParts; infer_instance

instance (o : Options) (y doy : Nat) : Decidable (yearlyDayOK o y doy) := by
  unfold yearlyDayOK; infer_instance

instance (o : Options) (mi d : Nat) : Decidable (monthlyDayOK o mi d) := by
  unfold monthlyDayOK; infer_instance

instance (o : Options) (rd : Nat) : Decidable (weeklyDayOK o rd) := by
  unfold weeklyDayOK; infer_instance

/-- BYSETPOS (§4.6): select 1-based positions (negative counted from the
end) from the period's sorted candidate list; out-of-range positions
contribute nothing; the selection is reported ascending, deduplicated. -/
def applySetPos (pos : List Int) (l : List Nat) : List Nat :=
  if pos = [] then l
  else sortDedup (pos.filterMap fun p =>
    if 0 < p then l.get? (p.toNat - 1)
    else if 0 ≤ (l.length : Int) + p then l.get? ((l.length : Int) + p).toNat
    else none)

/-- Modelled from the spec: the raw per-period candidate moments in local
civil seconds (§4.4–§4.5, module `iter`, absent from the sources).
Period `k` is anchored `interval` units of `freq` after the start.

* Yearly: the period year's days are expanded by the day by-parts (or the
  start's month/day without them; a date missing from the year — Feb 29 —
  contributes nothing); each day carries the expanded time grid.
* Monthly: BYMONTH limits the period's month; BYMONTHDAY/BYDAY expand its
  days, or the start's day-of-month is kept (months too short for it
  contribute nothing).
* Weekly: the week anchored at `wkst`, stepped by `interval` weeks; BYDAY
  expands its days (default: the start's weekday); BYMONTH limits.
* Daily: one day, `interval*k` days after the start, subject to the day
  limits.
* Hourly/Minutely/Secondly: the anchor hour/minute/second, with the
  coarser dimensions limiting and the finer ones expanding.
-/
def rawPeriodLocal (o : Options) (k : Nat) : List Nat :=
  match o.freq with
  | .yearly =>
    let y := o.year + o.interval * k
    let jan1 := rataDie y 1 1
    let days :=
      if hasDayParts o then
        (List.range (daysInYear y)).filterMap
          (fun i => if yearlyDayOK o y (i + 1) then some (jan1 + i) else none)
      else if 1 ≤ o.day ∧ o.day ≤ daysInMonth y o.month then
        [rataDie y o.month o.day]
      else []
    days.flatMap fun d => (timesOf o).map fun t => d * 86400 + t
  | .monthly =>
    let mi := o.startMonthIdx + o.interval * k
    let days :=
      if o.bymonth ≠ [] ∧ mi % 12 + 1 ∉ o.bymonth then []
      else if o.bymonthday ≠ [] ∨ o.byweekday ≠ [] ∨ o.bynweekday ≠ [] then
        (List.range (daysInMonthIdx mi)).filterMap
          (fun i => if monthlyDayOK o mi (i + 1) then some (firstRd mi + i) else none)
      else if 1 ≤ o.day ∧ o.day ≤ daysInMonthIdx mi then
        [firstRd mi + (o.day - 1)]
      else []
    days.flatMap fun d => (timesOf o).map fun t => d * 86400 + t
  | .weekly =>
    let base := o.weekBase + 7 * o.interval * k
    let days := (List.range 7).filterMap
      (fun j => if weeklyDayOK o (base + j) then some (base + j) else none)
    days.flatMap fun d => (timesOf o).map fun t => d * 86400 + t
  | .daily =>
    let rd := o.startRd + o.interval * k
    if dayLimitsOK o rd then (timesOf o).map fun t => rd * 86400 + t else []
  | .hourly =>
    let hs := o.startLocal / 3600 * 3600 + o.interval * k * 3600
    if dayLimitsOK o (hs / 86400) ∧
        (o.byhour = [] ∨ hs % 86400 / 3600 ∈ o.byhour) then
      (msOf o).map fun t => hs + t
    else []
  | .minutely =>
    let ms := o.startLocal / 60 * 60 + o.interval * k * 60
    if dayLimitsOK o (ms / 86400) ∧
        (o.byhour = [] ∨ ms % 86400 / 3600 ∈ o.byhour) ∧
        (o.byminute = [] ∨ ms % 3600 / 60 ∈ o.byminute) then
      (secondsOf o).map fun sc => ms + sc
    else []
  | .secondly =>
    let t := o.startLocal + o.interval * k
    if dayLimitsOK o (t / 86400) ∧
        (o.byhour = [] ∨ t % 86400 / 3600 ∈ o.byhour) ∧
        (o.byminute = [] ∨ t % 3600 / 60 ∈ o.byminute) ∧
        (o.bysecond = [] ∨ t % 60 ∈ o.bysecond) then
      [t]
    else []

/-- The period's candidate moments, ascending and deduplicated, after
BYSETPOS selection (§4.5–§4.6). -/
def periodLocal (o : Options) (k : Nat) : List Nat :=
  applySetPos o.bysetpos (sortDedup (rawPeriodLocal o k))

/-- A lower bound for every candidate moment of period `k`: the local
second count of the period anchor's first instant. -/
def loLocal (o : Options) (k : Nat) : Nat :=
  match o.freq with
  | .yearly => rataDie (o.year + o.interval * k) 1 1 * 86400
  | .monthly => firstRd (o.startMonthIdx + o.interval * k) * 86400
  | .weekly => (o.weekBase + 7 * o.interval * k) * 86400
  | .daily => (o.startRd + o.interval * k) * 86400
  | .hourly => o.startLocal / 3600 * 3600 + o.interval * k * 3600
  | .minutely => o.startLocal / 60 * 60 + o.interval * k * 60
  | .secondly => o.startLocal + o.interval * k

/-- The UTC civil day (rata-die day number) containing an absolute
instant. -/
def absDayUTC (t : Int) : Nat :=
  (t / 86400).toNat

/-- The period's absolute candidates (§4.2/§4.5): candidates before the
start are dropped, each survivor is read in the rule's zone, and local
moments in a DST gap are skipped silently. -/
def periodCands (o : Options) (k : Nat) : List Int :=
  ((periodLocal o k).filter (fun ls => o.startLocal ≤ ls)).filterMap o.tz

/-- The UNTIL check (§4.2/§4.6): instants strictly greater than the bound
terminate; the boundary itself is included. -/
def untilOK (o : Options) (t : Int) : Bool :=
  match o.untilAbs with | none => true | some u => t ≤ u

/-- All absolute candidates of the first `n` periods, in order. -/
def rawCands (o : Options) (n : Nat) : List Int :=
  (List.range n).flatMap (periodCands o)

/-- Candidates of the first `n` periods surviving the UNTIL bound. -/
def boundedCands (o : Options) (n : Nat) : List Int :=
  (rawCands o n).filter (untilOK o)

/-- Modelled from the spec: the occurrences of a rule drawn from its first
`n` periods (§4.6): the filtered candidate stream, cut to COUNT when the
rule is count-bounded.  For every bounded rule this stabilises once `n`
covers the bound. -/
def occurrences (o : Options) (n : Nat) : List Int :=
  match o.count with
  | some c => (boundedCands o n).take c
  | none => boundedCands o n

/-- §3's validity invariants on the start and interval: a positive
INTERVAL, a real civil start date (year ≥ 1, month 1–12, day ≥ 1) and a
real start time of day. -/
def ValidOptions (o : Options) : Prop :=
  1 ≤ o.interval ∧ 1 ≤ o.year ∧ 1 ≤ o.month ∧ o.month ≤ 12 ∧ 1 ≤ o.day ∧
  o.hour < 24 ∧ o.minute < 60 ∧ o.second < 60

instance (o : Options) : Decidable (ValidOptions o) := by
  unfold ValidOptions; infer_instance

/-- Modelled from the spec: rule-set composition (§4.7, module `rruleset`,
absent from the sources): the union of the inclusion rules' occurrences and
the inclusion dates, sorted by absolute instant with equal instants
coalesced, minus every instant produced by an exclusion rule or listed as
an exclusion date. -/
def rrulesetAll (rrules : List Options) (rdates : List Int)
    (exrules : List Options) (exdates : List Int) (n : Nat) : List Int :=
  let inc := sortDedup (rrules.flatMap (fun r => occurrences r n) ++ rdates)
  let exc := (exrules.flatMap (fun r => occurrences r n)) ++ exdates
  inc.filter (fun t => !(exc.contains t))

/-- Modelled from the spec: `RRule::all(limit)` (§6; `rrule.all(100)` in
examples/manual_properties.rs): materialise up to `limit` occurrences, and
report an error when the rule is unbounded (neither COUNT nor UNTIL) and
the limit is exhausted with occurrences remaining. -/
def rruleAll (o : Options) (limit : Nat) (n : Nat) : Except String (List Int) :=
  let occ := occurrences o n
  if o.count = none ∧ o.untilAbs = none ∧ limit < occ.length then
    .error "limit exhausted on an unbounded rule"
  else
    .ok (occ.take limit)

/-!
## The concrete rules of the specification's scenarios -/

/-- Scenario 1 / lib.rs doctest: Daily, COUNT=5, start
2020-01-01T09:00:00Z. -/
def dailyCount5 : Options :=
  { Options.default with
    freq := .daily, count := some 5,
    year := 2020, month := 1, day := 1, hour := 9 }

/-- Scenario 2 / lib.rs doctest: Weekly, INTERVAL=5,
UNTIL=2013-01-30T23:00:00Z, BYDAY=MO,FR, start 2012-02-01T09:30:00Z
(parsed from
`DTSTART:20120201T093000Z` /
`RRULE:FREQ=WEEKLY;INTERVAL=5;UNTIL=20130130T230000Z;BYDAY=MO,FR`). -/
def weeklyMoFr : Options :=
  { Options.default with
    freq := .weekly, interval := 5,
    untilAbs := some (localAbs (rataDie 2013 1 30) 23 0 0),
    byweekday := [0, 4],
    year := 2012, month := 2, day := 1, hour := 9, minute := 30 }

/-- Scenario 4 / lib.rs doctest: inclusion rule Weekly on Tue+Wed,
COUNT=4, start 2020-01-01T09:00 (UTC). -/
def weeklyTueWed : Options :=
  { Options.default with
    freq := .weekly, count := some 4,
    byweekday := [1, 2], year := 2020, month := 1, day := 1, hour := 9 }

/-- Scenario 4 / lib.rs doctest: exclusion rule Weekly on Wed, COUNT=4,
start 2020-01-01T09:00 (UTC). -/
def weeklyWedEx : Options :=
  { Options.default with
    freq := .weekly, count := some 4,
    byweekday := [2], year := 2020, month := 1, day := 1, hour := 9 }

/-- Scenario 5 / lib.rs doctest: Daily, COUNT=4, start 2020-01-01T09:00 in
Europe/Berlin (UTC+1 throughout January 2020). -/
def berlinDaily4 : Options :=
  { Options.default with
    freq := .daily, count := some 4,
    year := 2020, month := 1, day := 1, hour := 9, tz := fixedZone 60 }

/-- Scenario 5 / lib.rs doctest: the exclusion date 2020-01-02T08:00:00Z. -/
def berlinExdate : Int :=
  localAbs (rataDie 2020 1 2) 8 0 0

/-- Scenario 3 / lib.rs doctest: Monthly, COUNT=5, start
2012-02-01T02:30:00Z (the rule set's `RRULE:FREQ=MONTHLY;COUNT=5`). -/
def monthlyCount5 : Options :=
  { Options.default with
    freq := .monthly, count := some 5,
    year := 2012, month := 2, day := 1, hour := 2, minute := 30 }

/-- Scenario 3 / lib.rs doctest: the exclusion rule
`EXRULE:FREQ=MONTHLY;COUNT=2` (same DTSTART 2012-02-01T02:30:00Z). -/
def monthlyEx2 : Options :=
  { Options.default with
    freq := .monthly, count := some 2,
    year := 2012, month := 2, day := 1, hour := 2, minute := 30 }

/-- Scenario 3 / lib.rs doctest: the inclusion dates
`RDATE:20120701T023000Z,20120702T023000Z`. -/
def scenario3Rdates : List Int :=
  [localAbs (rataDie 2012 7 1) 2 30 0, localAbs (rataDie 2012 7 2) 2 30 0]

/-- Scenario 3 / lib.rs doctest: the exclusion date
`EXDATE:20120601T023000Z`. -/
def scenario3Exdates : List Int :=
  [localAbs (rataDie 2012 6 1) 2 30 0]

/-!
## The content-line parser

Embedded from
`src/rrule/src/parser/content_line/content_line_parts.rs`.  Rust `&str`
values are modelled as `List Char` (the inputs are ASCII). -/

/-- The recognised property names (source enum `PropertyName`). -/
inductive PropertyName
  | DtStart
  | RRule
  | RDate
  | ExRule
  | ExDate
deriving DecidableEq, Repr

/-- The display string of a property name (`PropertyName`'s `Display`). -/
def PropertyName.nameChars : PropertyName → List Char
  | .DtStart => ['D', 'T', 'S', 'T', 'A', 'R', 'T']
  | .RRule => ['R', 'R', 'U', 'L', 'E']
  | .RDate => ['R', 'D', 'A', 'T', 'E']
  | .ExRule => ['E', 'X', 'R', 'U', 'L', 'E']
  | .ExDate => ['E', 'X', 'D', 'A', 'T', 'E']

/-- Parse errors surfaced by the content-line layer. -/
inductive ParseError
  | unrecognizedName (name : List Char)
deriving DecidableEq, Repr

/-- `PropertyName::from_str`: map a captured name onto the enum. -/
def fromCaptured (s : List Char) : Option PropertyName :=
  if s = PropertyName.nameChars .DtStart then some .DtStart
  else if s = PropertyName.nameChars .RRule then some .RRule
  else if s = PropertyName.nameChars .RDate then some .RDate
  else if s = PropertyName.nameChars .ExRule then some .ExRule
  else if s = PropertyName.nameChars .ExDate then some .ExDate
  else none

/-- Is `c` an ASCII uppercase letter? -/
def isUpperAZ (c : Char) : Bool :=
  'A' ≤ c && c ≤ 'Z'

/-- Modelled from the spec: `get_property_name` (parser/regex.rs, absent
from the sources): the anchored pattern `[A-Z]+?[;:]` captures a leading
nonempty run of uppercase letters that is immediately followed by `;` or
`:`; a recognised captured name is returned, an unrecognised captured name
is a parse error, and a line without such a prefix carries no property
name. -/
def get_property_name (val : List Char) :
    Except ParseError (Option PropertyName) :=
  let letters := val.takeWhile isUpperAZ
  match val.drop letters.length with
  | c :: _ =>
    if (c = ';' ∨ c = ':') ∧ letters ≠ [] then
      match fromCaptured letters with
      | some p => .ok (some p)
      | none => .error (.unrecognizedName letters)
    else .ok none
  | [] => .ok none

/-- The parts of a content line (source struct `ContentLineCaptures`). -/
structure ContentLineCaptures where
  property_name : PropertyName
  parameters : Option (List Char)
  value : List Char
deriving DecidableEq, Repr

/-- Rust's `str::split_once`: split at the first occurrence of `sep`. -/
def splitOnce : List Char → Char → Option (List Char × List Char)
  | [], _ => none
  | c :: rest, sep =>
    if c = sep then some ([], rest)
    else (splitOnce rest sep).map (fun pr => (c :: pr.1, pr.2))

/-- `get_content_line_parts`: get the property name, parameters and value
of a content line (content_line_parts.rs lines 13–43).  The property name
defaults to `RRULE`; a line without `:` whose property name is `RRULE` is
taken whole as the value; otherwise the parameters are the slice between
`"NAME;"` and the first `:` (when the line starts with `"NAME;"` and has a
`:`), and the value is everything after the first `:` (empty when there is
no `:`). -/
def get_content_line_parts (val : List Char) :
    Except ParseError ContentLineCaptures :=
  match get_property_name val with
  | .error e => .error e
  | .ok pn? =>
    let property_name := pn?.getD .RRule
    if property_name = PropertyName.RRule ∧ ':' ∉ val then
      .ok ⟨.RRule, none, val⟩
    else
      let pfx := property_name.nameChars ++ [';']
      let parameters : Option (List Char) :=
        if pfx.isPrefixOf val then
          match val.findIdx? (fun c => c == ':') with
          | some i => some ((val.take i).drop pfx.length)
          | none => none
        else none
      let value : List Char :=
        match splitOnce val ':' with
        | some pr => pr.2
        | none => []
      .ok ⟨property_name, parameters, value⟩


/-!
## Sorted-insertion lemmas -/

theorem mem_insSorted {α : Type} [LinearOrder α] {x y : α} {l : List α} :
    y ∈ insSorted x l ↔ y = x ∨ y ∈ l := by
  induction l with
  | nil => simp [insSorted]
  | cons z zs ih =>
    by_cases h1 : x < z
    · simp only [insSorted, if_pos h1, List.mem_cons]
    · by_cases h2 : x = z
      · subst h2
        have he : insSorted x (x :: zs) = x :: zs := by
          simp [insSorted, h1]
        rw [he, List.mem_cons]
        tauto
      · simp only [insSorted, if_neg h1, if_neg h2, List.mem_cons, ih]
        tauto

theorem pairwise_insSorted {α : Type} [LinearOrder α] {x : α} {l : List α}
    (h : l.Pairwise (· < ·)) : (insSorted x l).Pairwise (· < ·) := by
  induction l with
  | nil => simp [insSorted]
  | cons z zs ih =>
    rcases List.pairwise_cons.1 h with ⟨hz, hzs⟩
    by_cases h1 : x < z
    · simp only [insSorted, if_pos h1]
      refine List.pairwise_cons.2 ⟨?_, h⟩
      intro b hb
      rcases List.mem_cons.1 hb with rfl | hb
      · exact h1
      · exact lt_trans h1 (hz b hb)
    · by_cases h2 : x = z
      · simpa only [insSorted, if_neg h1, if_pos h2] using h
      · have hx : z < x := lt_of_le_of_ne (not_lt.1 h1) (Ne.symm h2)
        simp only [insSorted, if_neg h1, if_neg h2]
        refine List.pairwise_cons.2 ⟨?_, ih hzs⟩
        intro b hb
        rcases mem_insSorted.1 hb with rfl | hb
        · exact hx
        · exact hz b hb

theorem pairwise_foldr_insSorted {α : Type} [LinearOrder α] (l : List α) :
    (l.foldr insSorted []).Pairwise (· < ·) := by
  induction l with
  | nil => simp
  | cons x xs ih => exact pairwise_insSorted ih

theorem mem_of_mem_foldr_insSorted {α : Type} [LinearOrder α] {l : List α}
    {y : α} (h : y ∈ l.foldr insSorted []) : y ∈ l := by
  induction l with
  | nil => simp at h
  | cons x xs ih =>
    rcases mem_insSorted.1 h with rfl | h'
    · exact List.mem_cons_self _ _
    · exact List.mem_cons_of_mem _ (ih h')

theorem byDayNorm_pairwise (o : Options) : (byDayNorm o).Pairwise (· < ·) :=
  pairwise_foldr_insSorted _

theorem byDayNorm_lt_seven {o : Options} {w : Nat} (h : w ∈ byDayNorm o) :
    w < 7 := by
  have h' := mem_of_mem_foldr_insSorted h
  simpa using (List.mem_filter.1 h').2

/-!
## Calendar lemmas -/

theorem cumMonth_twelve (y : Nat) : cumMonth y 12 = daysInYear y := by
  cases h : isLeap y <;> simp [cumMonth, daysInMonth, daysInYear, h]

theorem daysUpToYear_succ (y : Nat) :
    daysUpToYear (y + 1) = daysUpToYear y + daysInYear (y + 1) := by
  have h4 := Nat.succ_div y 4
  have h100 := Nat.succ_div y 100
  have h400 := Nat.succ_div y 400
  have hd4 : (4 ∣ (y + 1)) ↔ (y + 1) % 4 = 0 := by omega
  have hd100 : (100 ∣ (y + 1)) ↔ (y + 1) % 100 = 0 := by omega
  have hd400 : (400 ∣ (y + 1)) ↔ (y + 1) % 400 = 0 := by omega
  simp only [hd4] at h4
  simp only [hd100] at h100
  simp only [hd400] at h400
  unfold daysUpToYear daysInYear isLeap
  by_cases d4 : (y + 1) % 4 = 0 <;> by_cases d100 : (y + 1) % 100 = 0 <;>
    by_cases d400 : (y + 1) % 400 = 0 <;>
    (try simp [d4, d100, d400] at h4 h100 h400 ⊢) <;>
    omega

theorem firstRd_succ (mi : Nat) :
    firstRd (mi + 1) = firstRd mi + daysInMonthIdx mi := by
  rcases Nat.lt_or_ge (mi % 12) 11 with h | h
  · have hq : (mi + 1) / 12 = mi / 12 := by omega
    have hr : (mi + 1) % 12 = mi % 12 + 1 := by omega
    simp only [firstRd, daysInMonthIdx, hq, hr, cumMonth]
    omega
  · have h11 : mi % 12 = 11 := by omega
    have hq : (mi + 1) / 12 = mi / 12 + 1 := by omega
    have hr : (mi + 1) % 12 = 0 := by omega
    have e1 : firstRd (mi + 1) =
        daysUpToYear ((mi + 1) / 12) + cumMonth ((mi + 1) / 12 + 1) ((mi + 1) % 12) + 1 := rfl
    rw [hq, hr] at e1
    have e2 : cumMonth (mi / 12 + 1 + 1) 0 = 0 := rfl
    have e3 : firstRd mi =
        daysUpToYear (mi / 12) + cumMonth (mi / 12 + 1) (mi % 12) + 1 := rfl
    rw [h11] at e3
    have e4 : daysInMonthIdx mi = daysInMonth (mi / 12 + 1) (mi % 12 + 1) := rfl
    rw [h11] at e4
    norm_num at e4
    have hy : daysUpToYear (mi / 12 + 1) =
        daysUpToYear (mi / 12) + daysInYear (mi / 12 + 1) := daysUpToYear_succ _
    have h12 : cumMonth (mi / 12 + 1) 12 =
        cumMonth (mi / 12 + 1) 11 + daysInMonth (mi / 12 + 1) 12 := rfl
    have hcm := cumMonth_twelve (mi / 12 + 1)
    omega

theorem firstRd_mono {a b : Nat} (h : a ≤ b) : firstRd a ≤ firstRd b := by
  induction b with
  | zero =>
    have : a = 0 := by omega
    subst this; exact le_rfl
  | succ n ih =>
    by_cases ha : a ≤ n
    · exact le_trans (ih ha) (by rw [firstRd_succ]; omega)
    · have : a = n + 1 := by omega
      subst this; exact le_rfl

/-!
## Ordering of candidates -/

theorem mem_sortDedup {α : Type} [LinearOrder α] {l : List α} {y : α}
    (h : y ∈ sortDedup l) : y ∈ l :=
  mem_of_mem_foldr_insSorted h

theorem pairwise_sortDedup {α : Type} [LinearOrder α] (l : List α) :
    (sortDedup l).Pairwise (· < ·) :=
  pairwise_foldr_insSorted l

theorem daysUpToYear_mono {a b : Nat} (h : a ≤ b) :
    daysUpToYear a ≤ daysUpToYear b := by
  induction b with
  | zero =>
    have : a = 0 := by omega
    subst this; exact le_rfl
  | succ n ih =>
    by_cases ha : a ≤ n
    · exact le_trans (ih ha) (by rw [daysUpToYear_succ]; omega)
    · have : a = n + 1 := by omega
      subst this; exact le_rfl

theorem jan1_expand (y : Nat) : rataDie y 1 1 = daysUpToYear (y - 1) + 1 := by
  have h : cumMonth y 0 = 0 := rfl
  simp [rataDie, h]

theorem jan1_succ {y : Nat} (hy : 1 ≤ y) :
    rataDie (y + 1) 1 1 = rataDie y 1 1 + daysInYear y := by
  obtain ⟨z, rfl⟩ : ∃ z, y = z + 1 := ⟨y - 1, by omega⟩
  have h1 := jan1_expand (z + 1 + 1)
  have h4 : z + 1 + 1 - 1 = z + 1 := rfl
  rw [h4] at h1
  have h2 := jan1_expand (z + 1)
  have h5 : z + 1 - 1 = z := rfl
  rw [h5] at h2
  have h3 := daysUpToYear_succ z
  omega

theorem jan1_mono {a b : Nat} (h : a ≤ b) : rataDie a 1 1 ≤ rataDie b 1 1 := by
  have h1 := jan1_expand a
  have h2 := jan1_expand b
  have h3 := daysUpToYear_mono (show a - 1 ≤ b - 1 by omega)
  omega

theorem cumMonth_mono (y : Nat) {a b : Nat} (h : a ≤ b) :
    cumMonth y a ≤ cumMonth y b := by
  induction b with
  | zero =>
    have : a = 0 := by omega
    subst this; exact le_rfl
  | succ n ih =>
    by_cases ha : a ≤ n
    · have hs : cumMonth y (n + 1) = cumMonth y n + daysInMonth y (n + 1) := rfl
      have := ih ha
      omega
    · have : a = n + 1 := by omega
      subst this; exact le_rfl

theorem rataDie_lb {y m d : Nat} (hd1 : 1 ≤ d) :
    rataDie y 1 1 ≤ rataDie y m d := by
  have h1 := jan1_expand y
  have h2 : rataDie y m d = daysUpToYear (y - 1) + cumMonth y (m - 1) + d := rfl
  omega

theorem rataDie_ub {y m d : Nat} (hm1 : 1 ≤ m) (hm : m ≤ 12)
    (hd : d ≤ daysInMonth y m) :
    rataDie y m d < rataDie y 1 1 + daysInYear y := by
  have h1 := jan1_expand y
  have h2 : rataDie y m d = daysUpToYear (y - 1) + cumMonth y (m - 1) + d := rfl
  have h3 : cumMonth y (m - 1) + daysInMonth y m = cumMonth y m := by
    obtain ⟨n, rfl⟩ : ∃ n, m = n + 1 := ⟨m - 1, by omega⟩
    have hs : cumMonth y (n + 1) = cumMonth y n + daysInMonth y (n + 1) := rfl
    simpa [Nat.add_sub_cancel] using hs.symm
  have h4 := cumMonth_mono y hm
  have h5 := cumMonth_twelve y
  omega

theorem hoursOf_lt {o : Options} (hv : o.hour < 24) {h : Nat}
    (hm : h ∈ hoursOf o) : h < 24 := by
  unfold hoursOf at hm
  split at hm
  · simp at hm; omega
  · simpa using (List.mem_filter.1 (mem_sortDedup hm)).2

theorem minutesOf_lt {o : Options} (hv : o.minute < 60) {m : Nat}
    (hm : m ∈ minutesOf o) : m < 60 := by
  unfold minutesOf at hm
  split at hm
  · simp at hm; omega
  · simpa using (List.mem_filter.1 (mem_sortDedup hm)).2

theorem secondsOf_lt {o : Options} (hv : o.second < 60) {sc : Nat}
    (hm : sc ∈ secondsOf o) : sc < 60 := by
  unfold secondsOf at hm
  split at hm
  · simp at hm; omega
  · simpa using (List.mem_filter.1 (mem_sortDedup hm)).2

theorem timesOf_lt {o : Options} (h24 : o.hour < 24) (m60 : o.minute < 60)
    (s60 : o.second < 60) {t : Nat} (ht : t ∈ timesOf o) : t < 86400 := by
  unfold timesOf at ht
  rcases List.mem_flatMap.1 ht with ⟨h, hh, ht⟩
  rcases List.mem_flatMap.1 ht with ⟨mi, hmi, ht⟩
  rcases List.mem_map.1 ht with ⟨sc, hsc, rfl⟩
  have := hoursOf_lt h24 hh
  have := minutesOf_lt m60 hmi
  have := secondsOf_lt s60 hsc
  omega

theorem msOf_lt {o : Options} (m60 : o.minute < 60) (s60 : o.second < 60)
    {t : Nat} (ht : t ∈ msOf o) : t < 3600 := by
  unfold msOf at ht
  rcases List.mem_flatMap.1 ht with ⟨mi, hmi, ht⟩
  rcases List.mem_map.1 ht with ⟨sc, hsc, rfl⟩
  have := minutesOf_lt m60 hmi
  have := secondsOf_lt s60 hsc
  omega

theorem mem_applySetPos {pos : List Int} {l : List Nat} {y : Nat}
    (h : y ∈ applySetPos pos l) : y ∈ l := by
  unfold applySetPos at h
  split at h
  · exact h
  · rcases List.mem_filterMap.1 (mem_sortDedup h) with ⟨p, _, hp⟩
    split at hp
    · exact List.get?_mem hp
    · split at hp
      · exact List.get?_mem hp
      · simp at hp

theorem pairwise_periodLocal (o : Options) (k : Nat) :
    (periodLocal o k).Pairwise (· < ·) := by
  unfold periodLocal applySetPos
  split
  · exact pairwise_foldr_insSorted _
  · exact pairwise_foldr_insSorted _

theorem mem_periodLocal_raw {o : Options} {k ls : Nat}
    (h : ls ∈ periodLocal o k) : ls ∈ rawPeriodLocal o k :=
  mem_sortDedup (mem_applySetPos h)

theorem loLocal_le_of_mem {o : Options} {k ls : Nat}
    (h : ls ∈ periodLocal o k) : loLocal o k ≤ ls := by
  have h := mem_periodLocal_raw h
  cases hf : o.freq <;> simp only [rawPeriodLocal, loLocal, hf] at h ⊢
  case yearly =>
    rcases List.mem_flatMap.1 h with ⟨d, hd, ht⟩
    rcases List.mem_map.1 ht with ⟨t, _, rfl⟩
    have hdlb : rataDie (o.year + o.interval * k) 1 1 ≤ d := by
      split at hd
      · rcases List.mem_filterMap.1 hd with ⟨i, _, hi⟩
        split at hi
        · simp at hi; omega
        · simp at hi
      · split at hd
        case isTrue hg =>
          simp at hd; subst hd
          exact rataDie_lb hg.1
        case isFalse => simp at hd
    omega
  case monthly =>
    rcases List.mem_flatMap.1 h with ⟨d, hd, ht⟩
    rcases List.mem_map.1 ht with ⟨t, _, rfl⟩
    have hdlb : firstRd (o.startMonthIdx + o.interval * k) ≤ d := by
      split at hd
      · simp at hd
      · split at hd
        · rcases List.mem_filterMap.1 hd with ⟨i, _, hi⟩
          split at hi
          · simp at hi; omega
          · simp at hi
        · split at hd
          · simp at hd; omega
          · simp at hd
    omega
  case weekly =>
    rcases List.mem_flatMap.1 h with ⟨d, hd, ht⟩
    rcases List.mem_map.1 ht with ⟨t, _, rfl⟩
    rcases List.mem_filterMap.1 hd with ⟨j, _, hj⟩
    split at hj
    · simp at hj; omega
    · simp at hj
  case daily =>
    split at h
    · rcases List.mem_map.1 h with ⟨t, _, rfl⟩
      omega
    · simp at h
  case hourly =>
    split at h
    · rcases List.mem_map.1 h with ⟨t, _, rfl⟩
      omega
    · simp at h
  case minutely =>
    split at h
    · rcases List.mem_map.1 h with ⟨sc, _, rfl⟩
      omega
    · simp at h
  case secondly =>
    split at h
    · simp at h; omega
    · simp at h

theorem lt_loLocal_succ {o : Options} (hv : ValidOptions o) {k ls : Nat}
    (h : ls ∈ periodLocal o k) : ls < loLocal o (k + 1) := by
  obtain ⟨hI, hyr, hmo1, hmo12, hd1, h24, hm60, hs60⟩ := hv
  have h := mem_periodLocal_raw h
  have hms : o.interval * (k + 1) = o.interval * k + o.interval :=
    Nat.mul_succ _ _
  cases hf : o.freq <;> simp only [rawPeriodLocal, loLocal, hf] at h ⊢
  case yearly =>
    rcases List.mem_flatMap.1 h with ⟨d, hd, ht⟩
    rcases List.mem_map.1 ht with ⟨t, htm, rfl⟩
    have ht86 := timesOf_lt h24 hm60 hs60 htm
    have hdub : d < rataDie (o.year + o.interval * k) 1 1 +
        daysInYear (o.year + o.interval * k) := by
      split at hd
      · rcases List.mem_filterMap.1 hd with ⟨i, hi, hif⟩
        split at hif
        · have := List.mem_range.1 hi
          simp at hif
          omega
        · simp at hif
      · split at hd
        case isTrue hg =>
          simp at hd; subst hd
          exact rataDie_ub hmo1 hmo12 hg.2
        case isFalse => simp at hd
    have hsucc : rataDie (o.year + o.interval * k + 1) 1 1 =
        rataDie (o.year + o.interval * k) 1 1 +
          daysInYear (o.year + o.interval * k) := jan1_succ (by omega)
    rw [hms]
    have hmono : rataDie (o.year + o.interval * k + 1) 1 1 ≤
        rataDie (o.year + (o.interval * k + o.interval)) 1 1 :=
      jan1_mono (by omega)
    omega
  case monthly =>
    rcases List.mem_flatMap.1 h with ⟨d, hd, ht⟩
    rcases List.mem_map.1 ht with ⟨t, htm, rfl⟩
    have ht86 := timesOf_lt h24 hm60 hs60 htm
    have hdub : d < firstRd (o.startMonthIdx + o.interval * k) +
        daysInMonthIdx (o.startMonthIdx + o.interval * k) := by
      split at hd
      · simp at hd
      · split at hd
        · rcases List.mem_filterMap.1 hd with ⟨i, hi, hif⟩
          split at hif
          · have := List.mem_range.1 hi
            simp at hif
            omega
          · simp at hif
        · split at hd
          case isTrue hg =>
            simp at hd
            omega
          case isFalse => simp at hd
    have hsucc := firstRd_succ (o.startMonthIdx + o.interval * k)
    rw [hms]
    have hmono : firstRd (o.startMonthIdx + o.interval * k + 1) ≤
        firstRd (o.startMonthIdx + (o.interval * k + o.interval)) :=
      firstRd_mono (by omega)
    omega
  case weekly =>
    rcases List.mem_flatMap.1 h with ⟨d, hd, ht⟩
    rcases List.mem_map.1 ht with ⟨t, htm, rfl⟩
    have ht86 := timesOf_lt h24 hm60 hs60 htm
    rcases List.mem_filterMap.1 hd with ⟨j, hj, hjf⟩
    have hj7 := List.mem_range.1 hj
    have hms7 : 7 * o.interval * (k + 1) = 7 * o.interval * k + 7 * o.interval :=
      Nat.mul_succ _ _
    split at hjf
    · simp at hjf
      rw [hms7]
      omega
    · simp at hjf
  case daily =>
    split at h
    · rcases List.mem_map.1 h with ⟨t, htm, rfl⟩
      have ht86 := timesOf_lt h24 hm60 hs60 htm
      rw [hms]
      omega
    · simp at h
  case hourly =>
    split at h
    · rcases List.mem_map.1 h with ⟨t, htm, rfl⟩
      have ht36 := msOf_lt hm60 hs60 htm
      rw [hms]
      omega
    · simp at h
  case minutely =>
    split at h
    · rcases List.mem_map.1 h with ⟨sc, hsc, rfl⟩
      have ht60 := secondsOf_lt hs60 hsc
      rw [hms]
      omega
    · simp at h
  case secondly =>
    split at h
    · simp at h
      rw [hms]
      omega
    · simp at h

theorem loLocal_mono {o : Options} {k k' : Nat} (h : k ≤ k') :
    loLocal o k ≤ loLocal o k' := by
  induction k' with
  | zero =>
    have : k = 0 := by omega
    subst this; exact le_rfl
  | succ n ih =>
    by_cases hk : k ≤ n
    · refine le_trans (ih hk) ?_
      have hms : o.interval * (n + 1) = o.interval * n + o.interval :=
        Nat.mul_succ _ _
      have hms7 : 7 * o.interval * (n + 1) = 7 * o.interval * n + 7 * o.interval :=
        Nat.mul_succ _ _
      cases hf : o.freq <;> simp only [loLocal, hf]
      · rw [hms]
        have := jan1_mono (show o.year + o.interval * n ≤
          o.year + (o.interval * n + o.interval) by omega)
        omega
      · rw [hms]
        have := firstRd_mono (show o.startMonthIdx + o.interval * n ≤
          o.startMonthIdx + (o.interval * n + o.interval) by omega)
        omega
      · rw [hms7]; omega
      · rw [hms]; omega
      · rw [hms]; omega
      · rw [hms]; omega
      · rw [hms]; omega
    · have : k = n + 1 := by omega
      subst this; exact le_rfl

/-!
## From local moments to absolute instants -/

theorem zoneValid_fixedZone (off : Int) : ZoneValid (fixedZone off) := by
  intro a b x y hab hx hy
  simp only [fixedZone, Option.some.injEq] at hx hy
  omega

theorem pairwise_filterMap_zone {tz : Zone} (hz : ZoneValid tz) {l : List Nat}
    (hl : l.Pairwise (· < ·)) : (l.filterMap tz).Pairwise (· < ·) := by
  induction l with
  | nil => simp
  | cons a as ih =>
    rcases List.pairwise_cons.1 hl with ⟨ha, has⟩
    rw [List.filterMap_cons]
    cases htza : tz a with
    | none => exact ih has
    | some x =>
      refine List.pairwise_cons.2 ⟨?_, ih has⟩
      intro y hy
      rcases List.mem_filterMap.1 hy with ⟨b, hb, htzb⟩
      exact hz a b x y (ha b hb) htza htzb

theorem mem_periodCands {o : Options} {k : Nat} {t : Int}
    (h : t ∈ periodCands o k) : ∃ ls ∈ periodLocal o k, o.tz ls = some t := by
  rcases List.mem_filterMap.1 h with ⟨ls, hls, htz⟩
  exact ⟨ls, (List.mem_filter.1 hls).1, htz⟩

theorem pairwise_periodCands {o : Options} (hz : ZoneValid o.tz) (k : Nat) :
    (periodCands o k).Pairwise (· < ·) :=
  pairwise_filterMap_zone hz (List.Pairwise.filter _ (pairwise_periodLocal o k))

theorem mem_rawCands {o : Options} {n : Nat} {t : Int} :
    t ∈ rawCands o n ↔ ∃ k, k < n ∧ t ∈ periodCands o k := by
  simp [rawCands, List.mem_flatMap, List.mem_range]

theorem pairwise_rawCands {o : Options} (hv : ValidOptions o)
    (hz : ZoneValid o.tz) (n : Nat) : (rawCands o n).Pairwise (· < ·) := by
  induction n with
  | zero => simp [rawCands]
  | succ n ih =>
    simp only [rawCands, List.range_succ, List.flatMap_append]
    rw [List.pairwise_append]
    refine ⟨ih, by simpa using pairwise_periodCands hz n, ?_⟩
    intro a ha b hb
    simp only [List.flatMap_cons, List.flatMap_nil, List.append_nil] at hb
    rcases mem_rawCands.1 ha with ⟨j, hj, haj⟩
    rcases mem_periodCands haj with ⟨la, hla, htza⟩
    rcases mem_periodCands hb with ⟨lb, hlb, htzb⟩
    have h1 : la < loLocal o (j + 1) := lt_loLocal_succ hv hla
    have h2 : loLocal o (j + 1) ≤ loLocal o n := loLocal_mono (by omega)
    have h3 : loLocal o n ≤ lb := loLocal_le_of_mem hlb
    exact hz la lb a b (by omega) htza htzb

theorem pairwise_boundedCands {o : Options} (hv : ValidOptions o)
    (hz : ZoneValid o.tz) (n : Nat) : (boundedCands o n).Pairwise (· < ·) :=
  List.Pairwise.filter _ (pairwise_rawCands hv hz n)

theorem pairwise_occurrences {o : Options} (hv : ValidOptions o)
    (hz : ZoneValid o.tz) (n : Nat) : (occurrences o n).Pairwise (· < ·) := by
  rcases hc : o.count with _ | c <;> simp only [occurrences, hc]
  · exact pairwise_boundedCands hv hz n
  · exact List.Pairwise.sublist (List.take_sublist c _)
      (pairwise_boundedCands hv hz n)

theorem pairwise_rrulesetAll (rrules : List Options) (rdates : List Int)
    (exrules : List Options) (exdates : List Int) (n : Nat) :
    (rrulesetAll rrules rdates exrules exdates n).Pairwise (· < ·) :=
  List.Pairwise.filter _ (pairwise_sortDedup _)

/-!
## Stabilisation of bounded rules -/

theorem rawCands_add (o : Options) (N m : Nat) :
    rawCands o (N + m) =
      rawCands o N ++ ((List.range m).map (fun i => N + i)).flatMap (periodCands o) := by
  simp only [rawCands, List.range_add, List.flatMap_append]

theorem boundedCands_stable {o : Options} {N n : Nat} (hN : N ≤ n)
    (hdead : ∀ k, N ≤ k → ∀ t ∈ periodCands o k, untilOK o t = false) :
    boundedCands o n = boundedCands o N := by
  obtain ⟨m, rfl⟩ : ∃ m, n = N + m := ⟨n - N, by omega⟩
  simp only [boundedCands, rawCands_add, List.filter_append]
  have hnil : List.filter (untilOK o)
      (((List.range m).map (fun i => N + i)).flatMap (periodCands o)) = [] := by
    rw [List.filter_eq_nil_iff]
    intro t ht
    rcases List.mem_flatMap.1 ht with ⟨j, hj, htj⟩
    rcases List.mem_map.1 hj with ⟨i, _, rfl⟩
    simp [hdead (N + i) (by omega) t htj]
  rw [hnil, List.append_nil]

theorem occurrences_stable_dead {o : Options} {N n : Nat} (hN : N ≤ n)
    (hdead : ∀ k, N ≤ k → ∀ t ∈ periodCands o k, untilOK o t = false) :
    occurrences o n = occurrences o N := by
  unfold occurrences
  rw [boundedCands_stable hN hdead]

theorem occurrences_stable_count {o : Options} {c : Nat} (hc : o.count = some c)
    {N n : Nat} (hN : N ≤ n) (hlen : c ≤ (boundedCands o N).length) :
    occurrences o n = occurrences o N := by
  obtain ⟨m, rfl⟩ : ∃ m, n = N + m := ⟨n - N, by omega⟩
  simp only [occurrences, hc, boundedCands, rawCands_add, List.filter_append]
  exact List.take_append_of_le_length hlen

theorem periodCands_fixed_lb {o : Options} {off : Int} (hz : o.tz = fixedZone off)
    {k : Nat} {t : Int} (ht : t ∈ periodCands o k) :
    ((loLocal o k : Nat) : Int) - off * 60 ≤ t := by
  rcases mem_periodCands ht with ⟨ls, hls, htz⟩
  have h1 := loLocal_le_of_mem hls
  rw [hz] at htz
  simp only [fixedZone, Option.some.injEq] at htz
  omega

/-!
## The claims -/

/-- C1: for a rule with freq = Daily, bound = Count(5) and start =
2020-01-01T09:00:00Z, enumerating all occurrences (any horizon of at least
5 periods) yields exactly 5 elements, in order the five instants
2020-01-01T09:00Z through 2020-01-05T09:00Z. -/
theorem c1_daily_count5 (n : Nat) (hn : 5 ≤ n) :
    occurrences dailyCount5 n =
      [localAbs (rataDie 2020 1 1) 9 0 0, localAbs (rataDie 2020 1 2) 9 0 0,
       localAbs (rataDie 2020 1 3) 9 0 0, localAbs (rataDie 2020 1 4) 9 0 0,
       localAbs (rataDie 2020 1 5) 9 0 0] := by
  rw [occurrences_stable_count rfl hn (by decide)]
  decide

/-- Witness for C1 at horizon 6. -/
theorem c1_daily_count5_witness :
    5 ≤ 6 ∧ occurrences dailyCount5 6 =
      [localAbs (rataDie 2020 1 1) 9 0 0, localAbs (rataDie 2020 1 2) 9 0 0,
       localAbs (rataDie 2020 1 3) 9 0 0, localAbs (rataDie 2020 1 4) 9 0 0,
       localAbs (rataDie 2020 1 5) 9 0 0] :=
  ⟨by decide, c1_daily_count5 6 (by decide)⟩


/-- C2: for the rule parsed from `DTSTART:20120201T093000Z` /
`RRULE:FREQ=WEEKLY;INTERVAL=5;UNTIL=20130130T230000Z;BYDAY=MO,FR`,
enumerating all occurrences (any horizon of at least 11 periods, after
which every candidate exceeds UNTIL) yields exactly 21 occurrences; the
first is 2012-02-03T09:30Z, a Friday; every occurrence falls on a Monday
(0) or a Friday (4); and the occupied weeks, counted from the start's
week, are consecutive multiples of 5, i.e. consecutive occupied weeks are
always 5 weeks apart. -/
theorem c2_weekly_interval5_until (n : Nat) (hn : 11 ≤ n) :
    (occurrences weeklyMoFr n).length = 21 ∧
    (occurrences weeklyMoFr n).head? = some (localAbs (rataDie 2012 2 3) 9 30 0) ∧
    weekdayIdx (rataDie 2012 2 3) = 4 ∧
    (∀ t ∈ occurrences weeklyMoFr n,
      weekdayIdx (absDayUTC t) = 0 ∨ weekdayIdx (absDayUTC t) = 4) ∧
    List.Chain' (fun a b => b = a + 5)
      (((occurrences weeklyMoFr n).map
        (fun t => (absDayUTC t - weeklyMoFr.weekBase) / 7)).dedup) := by
  have hdead : ∀ k, 11 ≤ k → ∀ t ∈ periodCands weeklyMoFr k,
      untilOK weeklyMoFr t = false := by
    intro k hk t ht
    have h1 : loLocal weeklyMoFr 11 ≤ loLocal weeklyMoFr k := loLocal_mono hk
    have h2 : ((loLocal weeklyMoFr k : Nat) : Int) - 0 * 60 ≤ t :=
      periodCands_fixed_lb rfl ht
    have h3 : localAbs (rataDie 2013 1 30) 23 0 0 <
        ((loLocal weeklyMoFr 11 : Nat) : Int) := by decide
    have hu : weeklyMoFr.untilAbs = some (localAbs (rataDie 2013 1 30) 23 0 0) := rfl
    simp only [untilOK, hu, decide_eq_false_iff_not]
    omega
  rw [occurrences_stable_dead hn hdead]
  have he : occurrences weeklyMoFr 11 =
      [63463944600, 63466623000, 63466968600, 63469647000, 63469992600,
       63472671000, 63473016600, 63475695000, 63476040600, 63478719000,
       63479064600, 63481743000, 63482088600, 63484767000, 63485112600,
       63487791000, 63488136600, 63490815000, 63491160600, 63493839000,
       63494184600] := by decide
  rw [he]
  refine ⟨by decide, by decide, by decide, by decide, ?_⟩
  have hw : ((([63463944600, 63466623000, 63466968600, 63469647000, 63469992600,
       63472671000, 63473016600, 63475695000, 63476040600, 63478719000,
       63479064600, 63481743000, 63482088600, 63484767000, 63485112600,
       63487791000, 63488136600, 63490815000, 63491160600, 63493839000,
       63494184600] : List Int).map
        (fun t => (absDayUTC t - weeklyMoFr.weekBase) / 7)).dedup) =
      [0, 5, 10, 15, 20, 25, 30, 35, 40, 45, 50] := by decide
  rw [hw]
  norm_num [List.chain'_cons]

/-- Witness for C2 at horizon 11 (first conjunct). -/
theorem c2_weekly_interval5_until_witness :
    11 ≤ 11 ∧ (occurrences weeklyMoFr 11).length = 21 :=
  ⟨by decide, (c2_weekly_interval5_until 11 (by decide)).1⟩

/-- C3: the rule set with inclusion rule Weekly on Tue+Wed COUNT=4 and
exclusion rule Weekly on Wed COUNT=4, both starting 2020-01-01T09:00,
composes to exactly 2 occurrences (2020-01-07 and 2020-01-14 at 09:00),
every one of them on a Tuesday (weekday index 1). -/
theorem c3_weekly_tue_wed_exrule (n : Nat) (hn : 4 ≤ n) :
    rrulesetAll [weeklyTueWed] [] [weeklyWedEx] [] n =
      [localAbs (rataDie 2020 1 7) 9 0 0, localAbs (rataDie 2020 1 14) 9 0 0] ∧
    (rrulesetAll [weeklyTueWed] [] [weeklyWedEx] [] n).length = 2 ∧
    ∀ t ∈ rrulesetAll [weeklyTueWed] [] [weeklyWedEx] [] n,
      weekdayIdx (absDayUTC t) = 1 := by
  have e1 : occurrences weeklyTueWed n = occurrences weeklyTueWed 4 :=
    occurrences_stable_count rfl hn (by decide)
  have e2 : occurrences weeklyWedEx n = occurrences weeklyWedEx 4 :=
    occurrences_stable_count rfl hn (by decide)
  have hset : rrulesetAll [weeklyTueWed] [] [weeklyWedEx] [] n =
      [localAbs (rataDie 2020 1 7) 9 0 0, localAbs (rataDie 2020 1 14) 9 0 0] := by
    simp only [rrulesetAll, List.flatMap_cons, List.flatMap_nil,
      List.append_nil, e1, e2]
    decide
  exact ⟨hset, by rw [hset]; decide, by rw [hset]; decide⟩

/-- Witness for C3 at horizon 5 (second conjunct). -/
theorem c3_weekly_tue_wed_exrule_witness :
    4 ≤ 5 ∧ (rrulesetAll [weeklyTueWed] [] [weeklyWedEx] [] 5).length = 2 :=
  ⟨by decide, (c3_weekly_tue_wed_exrule 5 (by decide)).2.1⟩

/-- C4: Daily COUNT=4 starting 2020-01-01T09:00 in Europe/Berlin (UTC+1),
composed with the single exclusion date 2020-01-02T08:00:00Z, yields
exactly 3 occurrences: the Berlin occurrence of 2020-01-02 denotes the
same absolute instant as the exclusion date and is removed. -/
theorem c4_berlin_exdate (n : Nat) (hn : 4 ≤ n) :
    rrulesetAll [berlinDaily4] [] [] [berlinExdate] n =
      [localAbs (rataDie 2020 1 1) 9 0 60, localAbs (rataDie 2020 1 3) 9 0 60,
       localAbs (rataDie 2020 1 4) 9 0 60] ∧
    (rrulesetAll [berlinDaily4] [] [] [berlinExdate] n).length = 3 ∧
    localAbs (rataDie 2020 1 2) 9 0 60 = berlinExdate := by
  have e1 : occurrences berlinDaily4 n = occurrences berlinDaily4 4 :=
    occurrences_stable_count rfl hn (by decide)
  have hset : rrulesetAll [berlinDaily4] [] [] [berlinExdate] n =
      [localAbs (rataDie 2020 1 1) 9 0 60, localAbs (rataDie 2020 1 3) 9 0 60,
       localAbs (rataDie 2020 1 4) 9 0 60] := by
    simp only [rrulesetAll, List.flatMap_cons, List.flatMap_nil,
      List.append_nil, List.nil_append, e1]
    decide
  exact ⟨hset, by rw [hset]; decide, by decide⟩

/-- Witness for C4 at horizon 5 (second conjunct). -/
theorem c4_berlin_exdate_witness :
    4 ≤ 5 ∧ (rrulesetAll [berlinDaily4] [] [] [berlinExdate] 5).length = 3 :=
  ⟨by decide, (c4_berlin_exdate 5 (by decide)).2.1⟩

/-- C5: the rule set of `DTSTART:20120201T023000Z`, Monthly COUNT=5, RDATEs
2012-07-01T02:30Z and 2012-07-02T02:30Z, EXRULE Monthly COUNT=2 and EXDATE
2012-06-01T02:30Z composes to exactly 4 occurrences (April 1, May 1,
July 1 and July 2, all at 02:30Z). -/
theorem c5_monthly_ruleset (n : Nat) (hn : 5 ≤ n) :
    rrulesetAll [monthlyCount5] scenario3Rdates [monthlyEx2] scenario3Exdates n =
      [localAbs (rataDie 2012 4 1) 2 30 0, localAbs (rataDie 2012 5 1) 2 30 0,
       localAbs (rataDie 2012 7 1) 2 30 0, localAbs (rataDie 2012 7 2) 2 30 0] ∧
    (rrulesetAll [monthlyCount5] scenario3Rdates [monthlyEx2] scenario3Exdates n).length
      = 4 := by
  have e1 : occurrences monthlyCount5 n = occurrences monthlyCount5 5 :=
    occurrences_stable_count rfl hn (by decide)
  have e2 : occurrences monthlyEx2 n = occurrences monthlyEx2 5 :=
    occurrences_stable_count rfl hn (by decide)
  have hset : rrulesetAll [monthlyCount5] scenario3Rdates [monthlyEx2] scenario3Exdates n =
      [localAbs (rataDie 2012 4 1) 2 30 0, localAbs (rataDie 2012 5 1) 2 30 0,
       localAbs (rataDie 2012 7 1) 2 30 0, localAbs (rataDie 2012 7 2) 2 30 0] := by
    simp only [rrulesetAll, List.flatMap_cons, List.flatMap_nil,
      List.append_nil, e1, e2]
    decide
  exact ⟨hset, by rw [hset]; decide⟩

/-- Witness for C5 at horizon 6 (second conjunct). -/
theorem c5_monthly_ruleset_witness :
    5 ≤ 6 ∧
    (rrulesetAll [monthlyCount5] scenario3Rdates [monthlyEx2] scenario3Exdates 6).length
      = 4 :=
  ⟨by decide, (c5_monthly_ruleset 6 (by decide)).2⟩

/-- C6: for every valid rule — §3's invariants on the interval and start,
any of the seven frequencies, any by-parts, and any timezone adapter
obeying §4.2's gap-skip / earlier-fold policy — the emitted occurrence
sequence is strictly increasing in absolute instant; and every composed
rule-set stream is strictly increasing as well, so equal instants arising
from different inclusion sources appear at most once. -/
theorem c6_monotonic_dedup :
    (∀ (o : Options) (n : Nat), ValidOptions o → ZoneValid o.tz →
      (occurrences o n).Pairwise (· < ·)) ∧
    (∀ (rrules : List Options) (rdates : List Int) (exrules : List Options)
      (exdates : List Int) (n : Nat),
      (rrulesetAll rrules rdates exrules exdates n).Pairwise (· < ·)) :=
  ⟨fun _ n hv hz => pairwise_occurrences hv hz n,
   fun rrules rdates exrules exdates n =>
     pairwise_rrulesetAll rrules rdates exrules exdates n⟩

/-- Witness for C6: the daily COUNT=5 rule (a valid rule in the UTC zone)
at horizon 6. -/
theorem c6_monotonic_dedup_witness :
    (ValidOptions dailyCount5 ∧ ZoneValid dailyCount5.tz) ∧
    (occurrences dailyCount5 6).Pairwise (· < ·) :=
  ⟨⟨by decide, zoneValid_fixedZone 0⟩,
   c6_monotonic_dedup.1 dailyCount5 6 (by decide) (zoneValid_fixedZone 0)⟩

/-- C9: `all(limit)` materialises at most `limit` occurrences, and reports
an error exactly when the rule is unbounded (neither COUNT nor UNTIL) and
the limit is exhausted with further occurrences remaining. -/
theorem c9_all_limit (o : Options) (limit n : Nat) :
    (∀ l, rruleAll o limit n = .ok l → l.length ≤ limit) ∧
    ((o.count = none ∧ o.untilAbs = none ∧ limit < (occurrences o n).length) →
      rruleAll o limit n = .error "limit exhausted on an unbounded rule") := by
  constructor
  · intro l hl
    simp only [rruleAll] at hl
    split at hl
    · simp at hl
    · simp only [Except.ok.injEq] at hl
      subst hl
      rw [List.length_take]
      omega
  · intro h
    simp only [rruleAll]
    rw [if_pos h]

/-- Witness for C9: the default unbounded daily rule errors at limit 2
with 3 occurrences available. -/
theorem c9_all_limit_witness :
    (Options.default.count = none ∧ Options.default.untilAbs = none ∧
      2 < (occurrences Options.default 3).length) ∧
    rruleAll Options.default 2 3 = .error "limit exhausted on an unbounded rule" :=
  ⟨by decide, (c9_all_limit Options.default 2 3).2 (by decide)⟩


/-!
## Content-line parser lemmas -/

theorem takeWhile_append_of_all {p : Char → Bool} {l : List Char} {c : Char}
    (hl : ∀ a ∈ l, p a = true) (hc : p c = false) (r : List Char) :
    (l ++ c :: r).takeWhile p = l := by
  induction l with
  | nil => simp [List.takeWhile_cons, hc]
  | cons a as ih =>
    have ha := hl a (by simp)
    simp [List.takeWhile_cons, ha, ih (fun b hb => hl b (by simp [hb]))]

theorem isPrefixOf_append_self (l r : List Char) : l.isPrefixOf (l ++ r) = true := by
  induction l with
  | nil => simp [List.isPrefixOf]
  | cons a as ih => simp [List.isPrefixOf, ih]

theorem isPrefixOf_append_cons_ne {c c' : Char} (h : c ≠ c') (l r : List Char) :
    (l ++ [c]).isPrefixOf (l ++ c' :: r) = false := by
  induction l with
  | nil =>
    have hb : (c == c') = false := beq_eq_false_iff_ne.mpr h
    simp [List.isPrefixOf, hb]
  | cons a as ih => simp [List.isPrefixOf, ih]

theorem findIdx_colon_append {l : List Char} (hl : ':' ∉ l) (r : List Char)
    (i : Nat) :
    List.findIdx? (fun c => c == ':') (l ++ ':' :: r) i = some (i + l.length) := by
  induction l generalizing i with
  | nil => simp [List.findIdx?_cons]
  | cons a as ih =>
    have ha : (a == ':') = false :=
      beq_eq_false_iff_ne.mpr (fun h => hl (by simp [h]))
    rw [List.cons_append, List.findIdx?_cons, if_neg (by simp [ha]),
      ih (fun h => hl (List.mem_cons_of_mem _ h)) (i + 1)]
    congr 1
    simp
    omega

theorem findIdx_colon_zero {l : List Char} (hl : ':' ∉ l) (r : List Char) :
    List.findIdx? (fun c => c == ':') (l ++ ':' :: r) = some l.length := by
  have h := findIdx_colon_append hl r 0
  simpa using h

theorem findIdx_colon_none {l : List Char} (hl : ':' ∉ l) (i : Nat) :
    List.findIdx? (fun c => c == ':') l i = none := by
  induction l generalizing i with
  | nil => simp [List.findIdx?]
  | cons a as ih =>
    have ha : (a == ':') = false :=
      beq_eq_false_iff_ne.mpr (fun h => hl (by simp [h]))
    rw [List.findIdx?_cons, if_neg (by simp [ha])]
    exact ih (fun h => hl (List.mem_cons_of_mem _ h)) (i + 1)

theorem splitOnce_append {l : List Char} (hl : ':' ∉ l) (r : List Char) :
    splitOnce (l ++ ':' :: r) ':' = some (l, r) := by
  induction l with
  | nil => simp [splitOnce]
  | cons a as ih =>
    have ha : a ≠ ':' := fun h => hl (by simp [h])
    simp [splitOnce, ha, ih (fun h => hl (List.mem_cons_of_mem _ h))]

theorem splitOnce_none {l : List Char} (hl : ':' ∉ l) : splitOnce l ':' = none := by
  induction l with
  | nil => simp [splitOnce]
  | cons a as ih =>
    have ha : a ≠ ':' := fun h => hl (by simp [h])
    simp [splitOnce, ha, ih (fun h => hl (List.mem_cons_of_mem _ h))]

theorem nameChars_fromCaptured (p : PropertyName) :
    fromCaptured p.nameChars = some p := by
  cases p <;> rfl

theorem gpn_named (p : PropertyName) {c : Char} (hc : isUpperAZ c = false)
    (hsep : c = ';' ∨ c = ':') (rest : List Char) :
    get_property_name (p.nameChars ++ c :: rest) = .ok (some p) := by
  have hall : ∀ a ∈ p.nameChars, isUpperAZ a = true := by
    cases p <;> decide
  have hne : p.nameChars ≠ [] := by cases p <;> decide
  have htw : (p.nameChars ++ c :: rest).takeWhile isUpperAZ = p.nameChars :=
    takeWhile_append_of_all hall hc rest
  simp only [get_property_name, htw, List.drop_left]
  rw [if_pos ⟨hsep, hne⟩]
  simp [nameChars_fromCaptured]


/-- C7: for every line `PROPNAME;PARAMS:VALUE` with a recognised property
name and no colon inside `PARAMS`, `get_content_line_parts` returns Ok
with that name, parameters equal to the substring strictly between
`PROPNAME;` and the first colon, and value equal to the text after the
first colon; for `PROPNAME:VALUE` the parameters are `none`. -/
theorem c7_content_line_named (p : PropertyName) (params value : List Char)
    (hp : ':' ∉ params) :
    get_content_line_parts (p.nameChars ++ ';' :: (params ++ ':' :: value)) =
      .ok ⟨p, some params, value⟩ ∧
    get_content_line_parts (p.nameChars ++ ':' :: value) =
      .ok ⟨p, none, value⟩ := by
  have hnc : ':' ∉ p.nameChars := by cases p <;> decide
  constructor
  · have hg := gpn_named p (by decide) (Or.inl rfl) (params ++ ':' :: value)
    have hassoc1 : p.nameChars ++ ';' :: (params ++ ':' :: value) =
        (p.nameChars ++ ';' :: params) ++ ':' :: value := by simp
    have hl1 : ':' ∉ p.nameChars ++ ';' :: params := by
      intro h
      rcases List.mem_append.1 h with h | h
      · exact hnc h
      · rcases List.mem_cons.1 h with h | h
        · simp at h
        · exact hp h
    have hcolon : ':' ∈ p.nameChars ++ ';' :: (params ++ ':' :: value) := by simp
    have hassoc2 : p.nameChars ++ ';' :: (params ++ ':' :: value) =
        (p.nameChars ++ [';']) ++ (params ++ ':' :: value) := by simp
    have hassoc3 : p.nameChars ++ ';' :: params =
        (p.nameChars ++ [';']) ++ params := by simp
    simp only [get_content_line_parts, hg, Option.getD_some]
    rw [if_neg (fun hand => hand.2 hcolon)]
    rw [show (p.nameChars ++ ';' :: (params ++ ':' :: value)).findIdx?
          (fun c => c == ':') = some (p.nameChars ++ ';' :: params).length from
      hassoc1 ▸ findIdx_colon_zero hl1 value]
    rw [show (p.nameChars ++ [';']).isPrefixOf
          (p.nameChars ++ ';' :: (params ++ ':' :: value)) = true from
      hassoc2 ▸ isPrefixOf_append_self _ _]
    rw [show splitOnce (p.nameChars ++ ';' :: (params ++ ':' :: value)) ':' =
          some (p.nameChars ++ ';' :: params, value) from
      hassoc1 ▸ splitOnce_append hl1 value]
    simp only [if_true]
    rw [show (p.nameChars ++ ';' :: (params ++ ':' :: value)).take
          (p.nameChars ++ ';' :: params).length = p.nameChars ++ ';' :: params from
      hassoc1 ▸ List.take_left _ _]
    rw [show (p.nameChars ++ ';' :: params).drop (p.nameChars ++ [';']).length =
          params from hassoc3 ▸ List.drop_left _ _]
  · have hg := gpn_named p (by decide) (Or.inr rfl) value
    have hcolon : ':' ∈ p.nameChars ++ ':' :: value := by simp
    simp only [get_content_line_parts, hg, Option.getD_some]
    rw [if_neg (fun hand => hand.2 hcolon)]
    rw [isPrefixOf_append_cons_ne (by decide) p.nameChars value]
    rw [splitOnce_append hnc value]
    rfl

/-- Witness for C7: `DTSTART;TZID=A:20` and `DTSTART:20`. -/
theorem c7_content_line_named_witness :
    (':' ∉ (['T', 'Z', 'I', 'D', '=', 'A'] : List Char)) ∧
    get_content_line_parts
        (PropertyName.DtStart.nameChars ++
          ';' :: (['T', 'Z', 'I', 'D', '=', 'A'] ++ ':' :: ['2', '0'])) =
      .ok ⟨.DtStart, some ['T', 'Z', 'I', 'D', '=', 'A'], ['2', '0']⟩ :=
  ⟨by decide,
   (c7_content_line_named .DtStart ['T', 'Z', 'I', 'D', '=', 'A'] ['2', '0']
     (by decide)).1⟩

/-- C8: a line with no `:` and no explicit property name parses as an
RRULE whose value is the whole line (with no parameters). -/
theorem c8_bare_rrule_line (val : List Char)
    (hpn : get_property_name val = .ok none) (hcolon : ':' ∉ val) :
    get_content_line_parts val = .ok ⟨.RRule, none, val⟩ := by
  simp only [get_content_line_parts, hpn, Option.getD_none]
  rw [if_pos (show _ ∧ _ from ⟨by trivial, hcolon⟩)]

/-- Witness for C8: the bare line `FREQ=DAILY;COUNT=10`. -/
theorem c8_bare_rrule_line_witness :
    (get_property_name
        ['F', 'R', 'E', 'Q', '=', 'D', 'A', 'I', 'L', 'Y', ';',
         'C', 'O', 'U', 'N', 'T', '=', '1', '0'] = .ok none ∧
      ':' ∉ (['F', 'R', 'E', 'Q', '=', 'D', 'A', 'I', 'L', 'Y', ';',
         'C', 'O', 'U', 'N', 'T', '=', '1', '0'] : List Char)) ∧
    get_content_line_parts
        ['F', 'R', 'E', 'Q', '=', 'D', 'A', 'I', 'L', 'Y', ';',
         'C', 'O', 'U', 'N', 'T', '=', '1', '0'] =
      .ok ⟨.RRule, none,
        ['F', 'R', 'E', 'Q', '=', 'D', 'A', 'I', 'L', 'Y', ';',
         'C', 'O', 'U', 'N', 'T', '=', '1', '0']⟩ :=
  ⟨⟨rfl, by decide⟩,
   c8_bare_rrule_line _ rfl (by decide)⟩

/-- C10 fails as stated on the line `RRULE;FOO`: it begins with the
recognised property name `RRULE` followed by `;` and contains no `:`, yet
the value returned is the entire line, not the empty string (the
`RRULE`-with-no-colon arm of the match fires even when the name was
explicit). -/
theorem c10_counterexample :
    get_content_line_parts ['R', 'R', 'U', 'L', 'E', ';', 'F', 'O', 'O'] =
      .ok ⟨.RRule, none, ['R', 'R', 'U', 'L', 'E', ';', 'F', 'O', 'O']⟩ ∧
    (['R', 'R', 'U', 'L', 'E', ';', 'F', 'O', 'O'] : List Char) ≠ [] := by
  constructor
  · rfl
  · decide

/-- C10 (amended): for every line containing a `:` whose property name
resolves (recognised or defaulted), the value is exactly the suffix after
the first `:` — later colons are preserved inside the value; a line
beginning with a recognised property name other than `RRULE` followed by
`;` but containing no `:` still parses Ok, with parameters `none` and the
empty value; for `RRULE` followed by `;` with no `:`, the parse is Ok with
parameters `none` but the whole line as the value. -/
theorem c10_amended :
    (∀ (l r : List Char) (pn? : Option PropertyName), ':' ∉ l →
      get_property_name (l ++ ':' :: r) = .ok pn? →
      ∃ parts, get_content_line_parts (l ++ ':' :: r) = .ok parts ∧
        parts.value = r) ∧
    (∀ (p : PropertyName) (rest : List Char), p ≠ .RRule → ':' ∉ rest →
      get_content_line_parts (p.nameChars ++ ';' :: rest) = .ok ⟨p, none, []⟩) ∧
    (∀ rest : List Char, ':' ∉ rest →
      get_content_line_parts (PropertyName.RRule.nameChars ++ ';' :: rest) =
        .ok ⟨.RRule, none, PropertyName.RRule.nameChars ++ ';' :: rest⟩) := by
  refine ⟨?_, ?_, ?_⟩
  · intro l r pn? hl hpn
    have hcolon : ':' ∈ l ++ ':' :: r := by simp
    simp only [get_content_line_parts, hpn]
    rw [if_neg (fun hand => hand.2 hcolon)]
    exact ⟨_, rfl, by simp [splitOnce_append hl r]⟩
  · intro p rest hne hrest
    have hnc : ':' ∉ p.nameChars := by cases p <;> decide
    have hval : ':' ∉ p.nameChars ++ ';' :: rest := by
      intro h
      rcases List.mem_append.1 h with h | h
      · exact hnc h
      · rcases List.mem_cons.1 h with h | h
        · simp at h
        · exact hrest h
    have hg := gpn_named p (by decide) (Or.inl rfl) rest
    have hassoc : p.nameChars ++ ';' :: rest = (p.nameChars ++ [';']) ++ rest := by
      simp
    simp only [get_content_line_parts, hg, Option.getD_some]
    rw [if_neg (fun hand => hne hand.1)]
    rw [show (p.nameChars ++ [';']).isPrefixOf (p.nameChars ++ ';' :: rest) = true
      from hassoc ▸ isPrefixOf_append_self _ _]
    rw [show List.findIdx? (fun c => c == ':') (p.nameChars ++ ';' :: rest) = none
      from findIdx_colon_none hval 0]
    rw [splitOnce_none hval]
    rfl
  · intro rest hrest
    have hval : ':' ∉ PropertyName.RRule.nameChars ++ ';' :: rest := by
      intro h
      rcases List.mem_append.1 h with h | h
      · revert h; decide
      · rcases List.mem_cons.1 h with h | h
        · simp at h
        · exact hrest h
    have hg := gpn_named .RRule (by decide) (Or.inl rfl) rest
    simp only [get_content_line_parts, hg, Option.getD_some]
    rw [if_pos (show _ ∧ _ from ⟨by trivial, hval⟩)]

/-- Witness for C10 (amended), second part: `DTSTART;FOO` parses to an
empty value. -/
theorem c10_amended_witness :
    (PropertyName.DtStart ≠ PropertyName.RRule ∧
      ':' ∉ (['F', 'O', 'O'] : List Char)) ∧
    get_content_line_parts (PropertyName.DtStart.nameChars ++ ';' :: ['F', 'O', 'O']) =
      .ok ⟨.DtStart, none, []⟩ :=
  ⟨⟨by decide, by decide⟩,
   c10_amended.2.1 .DtStart ['F', 'O', 'O'] (by decide) (by decide)⟩

end RRuleLib
